import Mathlib

/-!
Verification of the version-resolution core of the Yet-Another-Nuget-Package-Manager
extension: the version comparator, the update classifier, the version cache with
request coalescing, the vulnerability index, range matching and range rendering,
and the batch resolution orchestration.

Shallow embedding conventions:
- JavaScript strings are `String`, arrays are `List`, numbers that hold version
  segments are `Int` (JS doubles round above 2^53; exact integers are used here,
  which agrees with JS on all realistic version components).
- `Map` objects are association lists keyed by strings; `Map.set` replaces the
  entry for an existing key.
- Asynchronous code is modelled as a state machine: each synchronous section of
  the JS event loop is one atomic step.
- Fallible results are `Except String`; a rejected promise is `.error`.
-/

namespace Yanpm

/-- The core JavaScript whitespace characters recognized by `parseInt` and
`String.prototype.trim` (ASCII subset; the exotic Unicode space characters do
not occur in version strings). -/
def isJsWhitespace (c : Char) : Bool :=
  c = ' ' || c = '\t' || c = '\n' || c = '\r' || c = '\x0b' || c = '\x0c'

/-- Value of a maximal leading run of decimal digits; `none` when there is no
leading digit (the `NaN` outcome of `parseInt`). -/
def parseDigits (cs : List Char) : Option Nat :=
  let ds := cs.takeWhile Char.isDigit
  if ds.isEmpty then none
  else some (ds.foldl (fun n c => 10 * n + (c.toNat - 48)) 0)

/-- Model of JavaScript `parseInt(s, 10)`: skip leading whitespace, read an
optional sign, then the longest digit prefix; `none` models `NaN`. -/
def jsParseInt (cs : List Char) : Option Int :=
  match cs.dropWhile isJsWhitespace with
  | [] => Option.none
  | c :: rest =>
    if c = '+' then (parseDigits rest).map Int.ofNat
    else if c = '-' then (parseDigits rest).map (fun n => -(n : Int))
    else (parseDigits (c :: rest)).map Int.ofNat

/-- Split a character list at the first occurrence of `sep`: returns the prefix
before it and, when `sep` occurs, the remainder after it.  Models the
decomposition performed by `version.split("-")` followed by
`prereleaseParts.join("-")`: the rejoined tail is exactly the text after the
first hyphen. -/
def splitAtFirstChar (sep : Char) : List Char → List Char × Option (List Char)
  | [] => ([], none)
  | c :: cs =>
    if c = sep then ([], some cs)
    else
      let r := splitAtFirstChar sep cs
      (c :: r.1, r.2)

/-- Split on every occurrence of `sep`, JavaScript `split` semantics: the empty
list yields one empty segment. -/
def splitOnChar (sep : Char) : List Char → List (List Char)
  | [] => [[]]
  | c :: cs =>
    let r := splitOnChar sep cs
    if c = sep then [] :: r
    else
      match r with
      | [] => [[c]]
      | h :: t => (c :: h) :: t

/-- `parseVersion` from `nugetApi.ts`: split on the first hyphen to separate the
numeric part from the pre-release tag, then split the numeric part on dots and
coerce each segment with `parseInt`, defaulting `NaN` to 0.  The second
component is `none` exactly when the version contains no hyphen. -/
def parseVersion (version : String) : List Int × Option String :=
  let s := splitAtFirstChar '-' version.data
  let parts := (splitOnChar '.' s.1).map (fun seg => (jsParseInt seg).getD 0)
  (parts, s.2.map fun cs => String.mk cs)

/-- First nonzero element of a list, or 0.  Helper for the element-wise loop of
`compareVersions` once one side has run out of components (missing components
read as 0 via `parts[i] || 0`). -/
def firstNonzero : List Int → Int
  | [] => 0
  | b :: bs => if b ≠ 0 then b else firstNonzero bs

/-- The element-wise numeric loop of `compareVersions`: compare components up to
the longer length, treating missing trailing components as 0; the first unequal
pair decides with value `partA - partB`. -/
def cmpParts : List Int → List Int → Int
  | [], ys => -(firstNonzero ys)
  | x :: xs, [] => firstNonzero (x :: xs)
  | x :: xs, y :: ys => if x ≠ y then x - y else cmpParts xs ys

/-- Code-point comparison of character lists returning -1/0/1.  Models the
host collation behind `String.prototype.localeCompare` (locale-sensitive in the
host; modelled as code-point order, which matches the host ordering on the
ASCII pre-release labels this program compares). -/
def charListCompare : List Char → List Char → Int
  | [], [] => 0
  | [], _ :: _ => -1
  | _ :: _, [] => 1
  | a :: as, b :: bs => if a < b then -1 else if b < a then 1 else charListCompare as bs

/-- Model of `a.localeCompare(b)`. -/
def localeCompare (a b : String) : Int :=
  charListCompare a.data b.data

/-- The pre-release tier of `compareVersions`, reached when all numeric
components are equal: a `null` label beats a present label; two labels compare
by `localeCompare` only when both are truthy (nonempty) strings, otherwise the
function falls through to `return 0`. -/
def prereleaseTier : Option String → Option String → Int
  | none, none => 0
  | none, some _ => 1
  | some _, none => -1
  | some la, some lb => if la ≠ "" ∧ lb ≠ "" then localeCompare la lb else 0

/-- `compareVersions` from `nugetApi.ts`: negative if `a < b`, positive if
`a > b`, 0 if equal; numeric components decide first, then stable beats
pre-release, then the labels compare. -/
def compareVersions (a b : String) : Int :=
  if cmpParts (parseVersion a).1 (parseVersion b).1 ≠ 0 then
    cmpParts (parseVersion a).1 (parseVersion b).1
  else
    prereleaseTier (parseVersion a).2 (parseVersion b).2

/-- A version whose pre-release label, when present, is nonempty; every version
string not ending its hyphen-split with an empty tail satisfies this. -/
def hasGoodLabel (v : String) : Prop :=
  (parseVersion v).2 ≠ some ""

instance (v : String) : Decidable (hasGoodLabel v) :=
  inferInstanceAs (Decidable ((parseVersion v).2 ≠ some ""))

/-- Pad a component list with trailing zeros up to length `n`. -/
def padTo (n : Nat) (xs : List Int) : List Int :=
  xs ++ List.replicate (n - xs.length) 0

/-- The update classification enumeration from `types/index.ts`. -/
inductive UpdateType
  | major
  | minor
  | patch
  | prerelease
  | none
deriving DecidableEq

/-- JavaScript truthiness of the `prerelease` field of a parsed version: truthy
iff present and nonempty. -/
def truthyOpt : Option String → Bool
  | Option.none => false
  | Option.some s => s != ""

/-- `getUpdateType` from `nugetApi.ts`: `none` for an empty candidate or equal
strings; `prerelease` when the candidate carries a truthy label and the current
does not; then the first of major/minor/patch where the candidate component
exceeds the current one (missing components read as 0); then `prerelease` when
both carry truthy labels; otherwise `patch`. -/
def getUpdateType (currentVersion newVersion : String) : UpdateType :=
  if newVersion = "" ∨ currentVersion = newVersion then .none
  else if truthyOpt (parseVersion newVersion).2 && !truthyOpt (parseVersion currentVersion).2 then
    .prerelease
  else if (parseVersion newVersion).1.getD 0 0 > (parseVersion currentVersion).1.getD 0 0 then
    .major
  else if (parseVersion newVersion).1.getD 1 0 > (parseVersion currentVersion).1.getD 1 0 then
    .minor
  else if (parseVersion newVersion).1.getD 2 0 > (parseVersion currentVersion).1.getD 2 0 then
    .patch
  else if truthyOpt (parseVersion currentVersion).2 && truthyOpt (parseVersion newVersion).2 then
    .prerelease
  else .patch

/-- `isPrerelease` from `nugetApi.ts`: a version is a pre-release iff it
contains a hyphen.  `isPrereleaseVersion` is the exported alias. -/
def isPrerelease (version : String) : Bool :=
  version.data.contains '-'

/-- Insertion step of the descending sort: `x` goes before the first element
`y` with `compareVersions x y ≥ 0`, i.e. before the first element the JS
comparator `(a, b) => compareVersions(b, a)` does not force after `x`. -/
def insertDescending (x : String) : List String → List String
  | [] => [x]
  | y :: ys =>
    if 0 ≤ compareVersions x y then x :: y :: ys else y :: insertDescending x ys

/-- Model of `versions.sort((a, b) => compareVersions(b, a))`: the engine sort
algorithm is unspecified; any comparator-consistent sort serves, modelled as
insertion sort driven by the same comparator. -/
def sortVersionsDescending (l : List String) : List String :=
  l.foldr insertDescending []

/-- Pure core of `getLatestVersion`: empty string for the empty list, else the
first entry lacking a pre-release label via `find`, with the JS
`stableVersion || versions[0]` fallback, which also treats an empty-string find
result as absent. -/
def latestFromList : List String → String
  | [] => ""
  | v0 :: rest =>
    match (v0 :: rest).find? (fun v => !isPrerelease v) with
    | some s => if s = "" then v0 else s
    | none => v0

/-- Pure core of `getLatestPrereleaseVersion`: empty string for the empty
list, else the first entry with a pre-release label via `find`, defaulting to
the empty string. -/
def prereleaseFromList : List String → String
  | [] => ""
  | v0 :: rest =>
    match (v0 :: rest).find? (fun v => isPrerelease v) with
    | some s => s
    | none => ""

/-- The descending-order relation asserted of the cached list: each element
compares greater than or equal to the next. -/
def VersionGe (a b : String) : Prop :=
  0 ≤ compareVersions a b

instance (a b : String) : Decidable (VersionGe a b) :=
  inferInstanceAs (Decidable (0 ≤ compareVersions a b))

/-- Model of JavaScript `String.prototype.trim` (ASCII whitespace subset). -/
def jsTrim (s : String) : String :=
  String.mk ((s.data.dropWhile isJsWhitespace).reverse.dropWhile isJsWhitespace).reverse

/-- Shared shape of the two interval regexes.  With `commaRequired = true`
this models the `isVersionInRange` pattern (opening bracket, min capture up to
a mandatory comma, optional whitespace, max capture free of closing brackets,
closing bracket); with `commaRequired = false` the comma is optional, the
`formatVulnerabilityRange` variant, where a comma-free middle is captured
entirely as the min bound with an empty max.  A match needs an opening bracket
first, a closing bracket last, and, when a comma occurs in between, no closing
bracket after the first comma.  The max capture here keeps the whitespace the
regex would assign to the gap; both callers trim the captures, so the
difference is immaterial. -/
def parseInterval (commaRequired : Bool) (cs : List Char) :
    Option (Bool × List Char × List Char × Bool) :=
  match cs with
  | [] => Option.none
  | c :: rest =>
    match rest.getLast? with
    | Option.none => Option.none
    | Option.some lastc =>
      if (c = '[' ∨ c = '(') ∧ (lastc = ']' ∨ lastc = ')') then
        match splitAtFirstChar ',' rest.dropLast with
        | (minCs, Option.some maxCs) =>
          if maxCs.all (fun ch => ch != ']' && ch != ')') then
            Option.some (c == '[', minCs, maxCs, lastc == ']')
          else Option.none
        | (minCs, Option.none) =>
          if commaRequired then Option.none
          else Option.some (c == '[', minCs, [], lastc == ']')
      else Option.none

/-- `isVersionInRange` from `nugetApi.ts`: parse the interval (comma
mandatory); a failed parse matches nothing; otherwise the version passes each
present (nonblank after trim) bound, inclusively for a bracket and exclusively
for a parenthesis, ordered by `compareVersions`. -/
def isVersionInRange (version range : String) : Bool :=
  match parseInterval true range.data with
  | Option.none => false
  | Option.some (minInc, minCs, maxCs, maxInc) =>
    let minV := jsTrim (String.mk minCs)
    let maxV := jsTrim (String.mk maxCs)
    (minV == "" ||
      (if minInc then decide (0 ≤ compareVersions version minV)
       else decide (0 < compareVersions version minV))) &&
    (maxV == "" ||
      (if maxInc then decide (compareVersions version maxV ≤ 0)
       else decide (compareVersions version maxV < 0)))

/-- `formatVulnerabilityRange` (the `versionUtils.ts` copy; the
`csprojDecorations.ts` copy renders identical strings): empty input yields the
empty string; a parse failure yields the trimmed input; an exact rendering for
equal inclusive bounds; one-sided renderings when one trimmed capture is
blank; a conjunction rendering when both are present; otherwise the trimmed
input. -/
def formatVulnerabilityRange (range : String) : String :=
  if range = "" then ""
  else
    let trimmed := jsTrim range
    match parseInterval false trimmed.data with
    | Option.none => trimmed
    | Option.some (minInc, minCs, maxCs, maxInc) =>
      let min := jsTrim (String.mk minCs)
      let max := jsTrim (String.mk maxCs)
      if min ≠ "" ∧ max ≠ "" ∧ min = max ∧ minInc = true ∧ maxInc = true then
        "Exact " ++ min
      else if min ≠ "" ∧ max = "" then
        (if minInc then ">= " else "> ") ++ min
      else if min = "" ∧ max ≠ "" then
        (if maxInc then "<= " else "< ") ++ max
      else if min ≠ "" ∧ max ≠ "" then
        (if minInc then ">=" else ">") ++ " " ++ min ++ " && " ++
          (if maxInc then "<=" else "<") ++ " " ++ max
      else trimmed

/-- Cache key normalization, `packageId.toLowerCase()` (ASCII case mapping
suffices for package ids). -/
def lowerKey (s : String) : String :=
  String.mk (s.data.map Char.toLower)

/-- The 1-hour version cache TTL in milliseconds. -/
def CACHE_TTL_MS : Nat := 60 * 60 * 1000

/-- `isCacheValid`: strict age check against the TTL.  Time is a monotone
millisecond clock, so truncated subtraction agrees with the JS arithmetic. -/
def isCacheValidAt (now ts : Nat) : Bool :=
  now - ts < CACHE_TTL_MS

/-- Process-wide state of the module: the version cache (key, stored list,
timestamp), the pending-request map (key, request id), and a fresh request-id
counter standing for promise identity. -/
structure NugetState where
  cache : List (String × List String × Nat)
  pending : List (String × Nat)
  nextId : Nat

/-- Fresh module state: both maps empty. -/
def initState : NugetState :=
  ⟨[], [], 0⟩

/-- Outcome of one synchronous run of `getPackageVersions`: a fresh-cache hit
returning the stored list, joining an in-flight fetch, or starting (and
registering) a new fetch — the only outcome that invokes the provider. -/
inductive CallOutcome
  | cached (versions : List String)
  | joined (rid : Nat)
  | started (rid : Nat)
deriving DecidableEq

/-- The pending-map check and registration: return the in-flight promise when
present, else create the fetch promise (this invokes the provider) and
register it.  No await separates the check from the registration, so the
section is atomic in the event loop. -/
def startOrJoin (s : NugetState) (key : String) : NugetState × CallOutcome :=
  match s.pending.lookup key with
  | Option.some rid => (s, .joined rid)
  | Option.none =>
    ({ s with pending := (key, s.nextId) :: s.pending, nextId := s.nextId + 1 },
      .started s.nextId)

/-- The synchronous section of `getPackageVersions`: serve a valid cache entry
directly, otherwise fall through to the pending check / fetch start. -/
def callVersions (s : NugetState) (pkg : String) (now : Nat) : NugetState × CallOutcome :=
  match s.cache.lookup (lowerKey pkg) with
  | Option.some (vs, ts) =>
    if isCacheValidAt now ts then (s, .cached vs) else startOrJoin s (lowerKey pkg)
  | Option.none => startOrJoin s (lowerKey pkg)

/-- Completion of the fetch for `key`: on success the descending-sorted list
is written to the cache (`Map.set` replaces any entry for the key) and the
`finally` clause removes the pending entry; on failure (rejected fetch or
non-success response) the `finally` clause still removes the pending entry and
no cache entry is written. -/
def completeFetch (s : NugetState) (key : String)
    (result : Except String (List String)) (now : Nat) : NugetState :=
  { s with
    cache :=
      match result with
      | .ok vs =>
        (key, sortVersionsDescending vs, now) :: s.cache.filter (fun e => e.1 != key)
      | .error _ => s.cache
    pending := s.pending.filter (fun e => e.1 != key) }

/-- The value a caller of `getPackageVersions` eventually observes, given the
per-request provider outcomes: a fresh-cache hit resolves with the cached
list; a caller holding the promise of request `rid` observes that request
outcome — the sorted list on success and the rejection on failure, because
`return fetchPromise` sits inside `try` without an await, so the surrounding
`catch` cannot intercept a later rejection of the returned promise. -/
def deliveredResult (o : CallOutcome)
    (providerResult : Nat → Except String (List String)) : Except String (List String) :=
  match o with
  | .cached vs => .ok vs
  | .joined rid => (providerResult rid).map sortVersionsDescending
  | .started rid => (providerResult rid).map sortVersionsDescending

/-- Events driving the module state: a `getPackageVersions` call and the
completion of the in-flight fetch for a package. -/
inductive NugetEvent
  | call (pkg : String) (now : Nat)
  | complete (pkg : String) (result : Except String (List String)) (now : Nat)

/-- One event step of the module state. -/
def stepState (s : NugetState) : NugetEvent → NugetState
  | .call pkg now => (callVersions s pkg now).1
  | .complete pkg result now => completeFetch s (lowerKey pkg) result now

/-- Run a trace of events from the fresh module state. -/
def runEvents (es : List NugetEvent) : NugetState :=
  es.foldl stepState initState

/-- The coalescing invariant: the pending map holds at most one entry per
key. -/
def PendingUnique (s : NugetState) : Prop :=
  (s.pending.map Prod.fst).Nodup

/-- Vulnerability record: severity (0 = low … 3 = critical), advisory URL,
affected-version range string. -/
structure VulnInfo where
  severity : Nat
  url : String
  versions : String
deriving DecidableEq

/-- The 6-hour vulnerability cache TTL in milliseconds. -/
def VULNERABILITY_CACHE_TTL_MS : Nat := 6 * 60 * 60 * 1000

/-- The process-wide vulnerability snapshot: package map plus fetch timestamp;
`Option.none` models the initial `null`. -/
structure VulnerabilityCache where
  data : List (String × List VulnInfo)
  timestamp : Nat
deriving DecidableEq

/-- `getVulnerabilities`: serve from the snapshot while it is younger than the
TTL; otherwise run `fetchVulnerabilityData` and replace the snapshot with its
result unconditionally.  `fetchVulnerabilityData` never throws: every failure
path returns the map built so far (the empty map when the service index, the
resource entry, or the page index fails; failed pages are skipped), so the
`fetched` parameter is that returned map.  The lookup lower-cases the package
id and filters the list by range membership against the supplied version. -/
def getVulnerabilitiesModel (cache : Option VulnerabilityCache) (now : Nat)
    (fetched : List (String × List VulnInfo)) (packageId version : String) :
    Option VulnerabilityCache × List VulnInfo :=
  match cache with
  | Option.some c =>
    if now - c.timestamp < VULNERABILITY_CACHE_TTL_MS then
      (Option.some c,
        ((c.data.lookup (lowerKey packageId)).getD []).filter
          (fun v => isVersionInRange version v.versions))
    else
      (Option.some ⟨fetched, now⟩,
        ((fetched.lookup (lowerKey packageId)).getD []).filter
          (fun v => isVersionInRange version v.versions))
  | Option.none =>
    (Option.some ⟨fetched, now⟩,
      ((fetched.lookup (lowerKey packageId)).getD []).filter
        (fun v => isVersionInRange version v.versions))

/-- Per-package resolution record produced by `refreshPackageList` for the
webview. -/
structure ResolvedPackage where
  name : String
  currentVersion : String
  latestVersion : String
  updateAvailable : Bool
  updateType : Option UpdateType
  prereleaseVersion : Option String
  vulnerabilities : List VulnInfo
deriving DecidableEq

/-- The per-package section of `refreshPackageList`, given the cached version
list of the package and the vulnerability snapshot: the resolved latest
version, the update flag (`!!latest && latest !== current && compare > 0`),
the classification when an update is available, the pre-release gate
(populated only when a truthy pre-release compares strictly newer than the
resolved latest), and the filtered vulnerability list. -/
def resolvePackage (name currentVersion : String) (versions : List String)
    (vulnData : List (String × List VulnInfo)) : ResolvedPackage :=
  let sorted := sortVersionsDescending versions
  let latest := latestFromList sorted
  let avail := latest != "" && latest != currentVersion &&
    decide (0 < compareVersions latest currentVersion)
  let pre := prereleaseFromList sorted
  { name := name
    currentVersion := currentVersion
    latestVersion := latest
    updateAvailable := avail
    updateType :=
      if avail && latest != "" then Option.some (getUpdateType currentVersion latest)
      else Option.none
    prereleaseVersion :=
      if pre != "" && decide (0 < compareVersions pre latest) then Option.some pre
      else Option.none
    vulnerabilities :=
      ((vulnData.lookup (lowerKey name)).getD []).filter
        (fun v => isVersionInRange currentVersion v.versions) }

/-- `getLatestVersions` over a batch: `Promise.all` of per-package
`getLatestVersion` calls.  A package whose version fetch rejects rejects its
mapped promise, and `Promise.all` rejects the whole batch. -/
def getLatestVersionsModel (pkgs : List (String × String))
    (fetches : String → Except String (List String)) :
    Except String (List (String × String)) :=
  pkgs.mapM (fun p => (fetches p.1).map
    (fun vs => (p.1, latestFromList (sortVersionsDescending vs))))

/-- `refreshPackageList` over a batch: the awaited `getLatestVersions` stage
and the per-package enrichment stage (which awaits the same per-package
fetches) sit inside one `try`; any rejection lands in the catch-all, which
reports an error to the webview instead of a package list. -/
def refreshPackageListModel (pkgs : List (String × String))
    (fetches : String → Except String (List String))
    (vulnData : List (String × List VulnInfo)) :
    Except String (List ResolvedPackage) :=
  (getLatestVersionsModel pkgs fetches).bind (fun _ =>
    pkgs.mapM (fun p => (fetches p.1).map
      (fun vs => resolvePackage p.1 p.2 vs vulnData)))

/-- Per-package record of the CodeLens path (`fetchVersionsAsync` in
`csprojDecorations.ts`): `null` sentinels and an empty vulnerability list on
failure. -/
structure DecorationInfo where
  latestVersion : Option String
  latestPrereleaseVersion : Option String
  vulnerabilities : List VulnInfo
deriving DecidableEq

/-- `fetchVersionsAsync`: each package has its own try/catch around its three
fetches, so a failure in one package only nulls the fields of that package. -/
def fetchVersionsAsyncModel (pkgs : List (String × String))
    (fetches : String → Except String (List String))
    (vulnData : List (String × List VulnInfo)) : List (String × DecorationInfo) :=
  pkgs.map (fun p =>
    match fetches p.1 with
    | .ok vs =>
      (p.1,
        ⟨Option.some (latestFromList (sortVersionsDescending vs)),
          Option.some (prereleaseFromList (sortVersionsDescending vs)),
          ((vulnData.lookup (lowerKey p.1)).getD []).filter
            (fun v => isVersionInRange p.2 v.versions)⟩)
    | .error _ => (p.1, ⟨Option.none, Option.none, []⟩))

theorem cmpParts_nil_right : ∀ xs : List Int, cmpParts xs [] = firstNonzero xs
  | [] => by simp [cmpParts, firstNonzero]
  | _ :: _ => rfl

theorem cmpParts_self : ∀ xs : List Int, cmpParts xs xs = 0
  | [] => by simp [cmpParts, firstNonzero]
  | x :: xs => by simp [cmpParts, cmpParts_self xs]

theorem cmpParts_neg : ∀ xs ys : List Int, cmpParts xs ys = -cmpParts ys xs
  | [], [] => by simp [cmpParts, firstNonzero]
  | [], _ :: _ => by simp [cmpParts]
  | _ :: _, [] => by simp [cmpParts]
  | x :: xs, y :: ys => by
    by_cases h : x = y
    · subst h
      simp [cmpParts, cmpParts_neg xs ys]
    · have h' : y ≠ x := Ne.symm h
      simp only [cmpParts, if_pos h, if_pos h']
      omega

theorem firstNonzero_replicate_zero : ∀ k : Nat, firstNonzero (List.replicate k 0) = 0
  | 0 => rfl
  | k + 1 => by simp [List.replicate_succ, firstNonzero, firstNonzero_replicate_zero k]

theorem firstNonzero_append_replicate_zero :
    ∀ (l : List Int) (k : Nat), firstNonzero (l ++ List.replicate k 0) = firstNonzero l
  | [], k => by simp [firstNonzero, firstNonzero_replicate_zero]
  | b :: bs, k => by
    by_cases h : b = 0 <;>
      simp [firstNonzero, h, firstNonzero_append_replicate_zero bs k]

theorem cmpParts_replicate_zero : ∀ (xs : List Int) (k : Nat),
    cmpParts xs (List.replicate k 0) = cmpParts xs []
  | [], k => by simp [cmpParts, firstNonzero, firstNonzero_replicate_zero]
  | _ :: _, 0 => rfl
  | x :: xs, k + 1 => by
    by_cases h : x = 0
    · subst h
      simp only [List.replicate_succ, cmpParts, ne_eq, not_true_eq_false, if_false,
        ite_self]
      rw [cmpParts_replicate_zero xs k, cmpParts_nil_right]
      simp [firstNonzero]
    · simp [List.replicate_succ, cmpParts, cmpParts_nil_right, firstNonzero, h]

theorem cmpParts_append_replicate_zero_right :
    ∀ (ys xs : List Int) (k : Nat), cmpParts xs (ys ++ List.replicate k 0) = cmpParts xs ys
  | [], xs, k => by simpa using cmpParts_replicate_zero xs k
  | y :: ys, [], k => by
    simp only [cmpParts]
    rw [firstNonzero_append_replicate_zero]
  | y :: ys, x :: xs, k => by
    by_cases h : x = y <;>
      simp [cmpParts, h, cmpParts_append_replicate_zero_right ys xs k]

theorem cmpParts_append_replicate_zero_left (xs ys : List Int) (k : Nat) :
    cmpParts (xs ++ List.replicate k 0) ys = cmpParts xs ys := by
  rw [cmpParts_neg, cmpParts_append_replicate_zero_right, ← cmpParts_neg]

theorem padTo_length (n : Nat) (xs : List Int) (h : xs.length ≤ n) :
    (padTo n xs).length = n := by
  simp only [padTo, List.length_append, List.length_replicate]
  omega

theorem cmpParts_padTo (n : Nat) (xs ys : List Int) :
    cmpParts (padTo n xs) (padTo n ys) = cmpParts xs ys := by
  simp [padTo, cmpParts_append_replicate_zero_left, cmpParts_append_replicate_zero_right]

theorem cmpParts_eq_zero_eqlen : ∀ xs ys : List Int,
    xs.length = ys.length → cmpParts xs ys = 0 → xs = ys
  | [], [], _, _ => rfl
  | [], _ :: _, h, _ => by simp at h
  | _ :: _, [], h, _ => by simp at h
  | x :: xs, y :: ys, h, h0 => by
    by_cases hxy : x = y
    · subst hxy
      have := cmpParts_eq_zero_eqlen xs ys (by simpa using h) (by simpa [cmpParts] using h0)
      rw [this]
    · simp only [cmpParts, if_pos hxy] at h0
      omega

theorem cmpParts_lt_trans_eqlen : ∀ xs ys zs : List Int,
    xs.length = ys.length → ys.length = zs.length →
    cmpParts xs ys < 0 → cmpParts ys zs < 0 → cmpParts xs zs < 0
  | [], [], [], _, _, h1, _ => by simp [cmpParts, firstNonzero] at h1
  | [], _ :: _, _, h, _, _, _ => by simp at h
  | _ :: _, [], _, h, _, _, _ => by simp at h
  | _ :: _, _ :: _, [], _, h, _, _ => by simp at h
  | x :: xs, y :: ys, z :: zs, hl1, hl2, h1, h2 => by
    by_cases hxy : x = y <;> by_cases hyz : y = z
    · have hxz : x = z := by omega
      simp only [cmpParts, if_neg (not_not_intro hxy), if_neg (not_not_intro hyz),
        if_neg (not_not_intro hxz)] at h1 h2 ⊢
      exact cmpParts_lt_trans_eqlen xs ys zs (by simpa using hl1) (by simpa using hl2) h1 h2
    · simp only [cmpParts, if_pos hyz] at h2
      have hxz : x ≠ z := by omega
      simp only [cmpParts, if_pos hxz]
      omega
    · simp only [cmpParts, if_pos hxy] at h1
      have hxz : x ≠ z := by omega
      simp only [cmpParts, if_pos hxz]
      omega
    · simp only [cmpParts, if_pos hxy] at h1
      simp only [cmpParts, if_pos hyz] at h2
      have hxz : x ≠ z := by omega
      simp only [cmpParts, if_pos hxz]
      omega

theorem cmpParts_lt_trans (xs ys zs : List Int)
    (h1 : cmpParts xs ys < 0) (h2 : cmpParts ys zs < 0) : cmpParts xs zs < 0 := by
  set n := max xs.length (max ys.length zs.length) with hn
  have hx : xs.length ≤ n := le_max_left _ _
  have hy : ys.length ≤ n := le_trans (le_max_left _ _) (le_max_right _ _)
  have hz : zs.length ≤ n := le_trans (le_max_right _ _) (le_max_right _ _)
  rw [← cmpParts_padTo n xs zs]
  exact cmpParts_lt_trans_eqlen (padTo n xs) (padTo n ys) (padTo n zs)
    (by rw [padTo_length n xs hx, padTo_length n ys hy])
    (by rw [padTo_length n ys hy, padTo_length n zs hz])
    (by rw [cmpParts_padTo]; exact h1)
    (by rw [cmpParts_padTo]; exact h2)

theorem cmpParts_zero_congr_right (ys zs : List Int) (h : cmpParts ys zs = 0)
    (xs : List Int) : cmpParts xs ys = cmpParts xs zs := by
  set n := max ys.length zs.length with hn
  have hy : ys.length ≤ n := le_max_left _ _
  have hz : zs.length ≤ n := le_max_right _ _
  have hpad : padTo n ys = padTo n zs :=
    cmpParts_eq_zero_eqlen _ _ (by rw [padTo_length n ys hy, padTo_length n zs hz])
      (by rw [cmpParts_padTo]; exact h)
  calc cmpParts xs ys = cmpParts xs (padTo n ys) := by
        rw [padTo, cmpParts_append_replicate_zero_right]
    _ = cmpParts xs (padTo n zs) := by rw [hpad]
    _ = cmpParts xs zs := by rw [padTo, cmpParts_append_replicate_zero_right]

theorem cmpParts_zero_congr_left (xs ys : List Int) (h : cmpParts xs ys = 0)
    (zs : List Int) : cmpParts xs zs = cmpParts ys zs := by
  calc cmpParts xs zs = -cmpParts zs xs := cmpParts_neg _ _
    _ = -cmpParts zs ys := by rw [cmpParts_zero_congr_right xs ys h zs]
    _ = cmpParts ys zs := (cmpParts_neg ys zs).symm

theorem charListCompare_self : ∀ as : List Char, charListCompare as as = 0
  | [] => rfl
  | a :: as => by simp [charListCompare, charListCompare_self as]

theorem charListCompare_neg : ∀ as bs : List Char,
    charListCompare as bs = -charListCompare bs as
  | [], [] => rfl
  | [], b :: bs => by simp [charListCompare]
  | a :: as, [] => by simp [charListCompare]
  | a :: as, b :: bs => by
    rcases lt_trichotomy a b with h | h | h
    · simp [charListCompare, h, lt_asymm h]
    · subst h
      simp [charListCompare, charListCompare_neg as bs]
    · simp [charListCompare, h, lt_asymm h]

theorem charListCompare_le_trans : ∀ as bs cs : List Char,
    charListCompare as bs ≤ 0 → charListCompare bs cs ≤ 0 → charListCompare as cs ≤ 0
  | [], _, cs, _, _ => by cases cs <;> simp [charListCompare]
  | _ :: _, [], _, h1, _ => by simp [charListCompare] at h1
  | _ :: _, _ :: _, [], _, h2 => by simp [charListCompare] at h2
  | a :: as, b :: bs, c :: cs, h1, h2 => by
    rcases lt_trichotomy a b with hab | hab | hab <;>
      rcases lt_trichotomy b c with hbc | hbc | hbc
    · simp [charListCompare, lt_trans hab hbc]
    · subst hbc; simp [charListCompare, hab]
    · simp [charListCompare, hbc, lt_asymm hbc] at h2
    · subst hab; simp [charListCompare, hbc]
    · subst hab; subst hbc
      simp only [charListCompare, lt_irrefl, if_false] at h1 h2 ⊢
      exact charListCompare_le_trans as bs cs h1 h2
    · subst hab
      simp [charListCompare, hbc, lt_asymm hbc] at h2
    · simp [charListCompare, hab, lt_asymm hab] at h1
    · simp [charListCompare, hab, lt_asymm hab] at h1
    · simp [charListCompare, hab, lt_asymm hab] at h1

theorem localeCompare_self (s : String) : localeCompare s s = 0 :=
  charListCompare_self s.data

theorem localeCompare_neg (a b : String) : localeCompare a b = -localeCompare b a :=
  charListCompare_neg a.data b.data

theorem localeCompare_le_trans (a b c : String)
    (h1 : localeCompare a b ≤ 0) (h2 : localeCompare b c ≤ 0) : localeCompare a c ≤ 0 :=
  charListCompare_le_trans a.data b.data c.data h1 h2

theorem prereleaseTier_self : ∀ x : Option String, prereleaseTier x x = 0
  | none => rfl
  | some l => by
    by_cases h : l = "" <;> simp [prereleaseTier, h, localeCompare_self]

theorem prereleaseTier_neg : ∀ x y : Option String,
    prereleaseTier x y = -prereleaseTier y x
  | none, none => rfl
  | none, some l => by simp [prereleaseTier]
  | some l, none => by simp [prereleaseTier]
  | some la, some lb => by
    by_cases ha : la = "" <;> by_cases hb : lb = "" <;>
      simp [prereleaseTier, ha, hb, localeCompare_neg la lb]

theorem prereleaseTier_le_trans : ∀ x y z : Option String,
    x ≠ some "" → y ≠ some "" → z ≠ some "" →
    prereleaseTier x y ≤ 0 → prereleaseTier y z ≤ 0 → prereleaseTier x z ≤ 0
  | none, none, none, _, _, _, _, _ => by simp [prereleaseTier]
  | none, none, some _, _, _, _, _, h2 => by simp [prereleaseTier] at h2
  | none, some _, _, _, _, _, h1, _ => by simp [prereleaseTier] at h1
  | some _, none, none, _, _, _, _, _ => by simp [prereleaseTier]
  | some _, none, some _, _, _, _, _, h2 => by simp [prereleaseTier] at h2
  | some _, some _, none, _, _, _, _, _ => by simp [prereleaseTier]
  | some la, some lb, some lc, gx, gy, gz, h1, h2 => by
    have ha : la ≠ "" := fun h => gx (by rw [h])
    have hb : lb ≠ "" := fun h => gy (by rw [h])
    have hc : lc ≠ "" := fun h => gz (by rw [h])
    simp only [prereleaseTier, if_pos (And.intro ha hb)] at h1
    simp only [prereleaseTier, if_pos (And.intro hb hc)] at h2
    simp only [prereleaseTier, if_pos (And.intro ha hc)]
    exact localeCompare_le_trans la lb lc h1 h2

theorem compareVersions_self (a : String) : compareVersions a a = 0 := by
  unfold compareVersions
  rw [cmpParts_self (parseVersion a).1]
  simp [prereleaseTier_self]

theorem compareVersions_neg (a b : String) : compareVersions a b = -compareVersions b a := by
  unfold compareVersions
  by_cases h : cmpParts (parseVersion a).1 (parseVersion b).1 = 0
  · have h' : cmpParts (parseVersion b).1 (parseVersion a).1 = 0 := by
      rw [cmpParts_neg] at h
      omega
    rw [if_neg (not_not_intro h), if_neg (not_not_intro h')]
    exact prereleaseTier_neg _ _
  · have h' : cmpParts (parseVersion b).1 (parseVersion a).1 ≠ 0 := by
      rw [cmpParts_neg]
      omega
    rw [if_pos h, if_pos h']
    exact cmpParts_neg _ _

theorem compareVersions_le_trans (a b c : String)
    (ga : hasGoodLabel a) (gb : hasGoodLabel b) (gc : hasGoodLabel c)
    (h1 : compareVersions a b ≤ 0) (h2 : compareVersions b c ≤ 0) :
    compareVersions a c ≤ 0 := by
  unfold compareVersions at h1 h2 ⊢
  by_cases hab : cmpParts (parseVersion a).1 (parseVersion b).1 = 0 <;>
    by_cases hbc : cmpParts (parseVersion b).1 (parseVersion c).1 = 0
  · have hac : cmpParts (parseVersion a).1 (parseVersion c).1 = 0 := by
      rw [← cmpParts_zero_congr_right _ _ hbc]
      exact hab
    simp only [hab, hbc, hac, ne_eq, not_true_eq_false, if_false, ite_self] at h1 h2 ⊢
    exact prereleaseTier_le_trans _ _ _ ga gb gc h1 h2
  · have hlt2 : cmpParts (parseVersion b).1 (parseVersion c).1 < 0 := by
      simp only [if_pos hbc] at h2
      omega
    have hac : cmpParts (parseVersion a).1 (parseVersion c).1 < 0 := by
      rw [cmpParts_zero_congr_left _ _ hab]
      exact hlt2
    simp only [if_pos (show cmpParts (parseVersion a).1 (parseVersion c).1 ≠ 0 by omega)]
    omega
  · have hlt1 : cmpParts (parseVersion a).1 (parseVersion b).1 < 0 := by
      simp only [if_pos hab] at h1
      omega
    have hac : cmpParts (parseVersion a).1 (parseVersion c).1 < 0 := by
      rw [← cmpParts_zero_congr_right _ _ hbc]
      exact hlt1
    simp only [if_pos (show cmpParts (parseVersion a).1 (parseVersion c).1 ≠ 0 by omega)]
    omega
  · have hlt1 : cmpParts (parseVersion a).1 (parseVersion b).1 < 0 := by
      simp only [if_pos hab] at h1
      omega
    have hlt2 : cmpParts (parseVersion b).1 (parseVersion c).1 < 0 := by
      simp only [if_pos hbc] at h2
      omega
    have hac : cmpParts (parseVersion a).1 (parseVersion c).1 < 0 :=
      cmpParts_lt_trans _ _ _ hlt1 hlt2
    simp only [if_pos (show cmpParts (parseVersion a).1 (parseVersion c).1 ≠ 0 by omega)]
    omega

/-- C1 counterexample: `compareVersions` is not transitive on all version
strings.  A version whose text after the hyphen is empty compares equal to
every labelled version with the same numeric components (the truthiness guard
skips `localeCompare`), yet two nonempty labels compare strictly; the chain
beta ≤ (empty label) ≤ alpha but beta > alpha refutes transitivity, hence the
claimed total order. -/
theorem compareVersions_transitivity_counterexample :
    compareVersions "1.0.0-beta" "1.0.0-" ≤ 0 ∧
    compareVersions "1.0.0-" "1.0.0-alpha" ≤ 0 ∧
    ¬ compareVersions "1.0.0-beta" "1.0.0-alpha" ≤ 0 := by
  decide

/-- C1 (amended): `compareVersions` satisfies `compare(a,a) = 0` and sign
antisymmetry for all strings, and is transitive on versions whose pre-release
label, when present, is nonempty; missing trailing numeric components count as
zero, so `compare("1.2","1.2.0") = 0`; when all numeric components are equal, a
version without a pre-release label compares strictly greater than one with a
label, and two versions with nonempty labels are ordered by the locale-aware
comparison of their labels. -/
theorem compareVersions_total_order :
    (∀ a : String, compareVersions a a = 0) ∧
    (∀ a b : String, (compareVersions a b).sign = -(compareVersions b a).sign) ∧
    (∀ a b c : String, hasGoodLabel a → hasGoodLabel b → hasGoodLabel c →
      compareVersions a b ≤ 0 → compareVersions b c ≤ 0 → compareVersions a c ≤ 0) ∧
    compareVersions "1.2" "1.2.0" = 0 ∧
    (∀ a b : String, cmpParts (parseVersion a).1 (parseVersion b).1 = 0 →
      (parseVersion a).2 = none → (parseVersion b).2 ≠ none → 0 < compareVersions a b) ∧
    (∀ a b : String, ∀ la lb : String,
      cmpParts (parseVersion a).1 (parseVersion b).1 = 0 →
      (parseVersion a).2 = some la → la ≠ "" → (parseVersion b).2 = some lb → lb ≠ "" →
      compareVersions a b = localeCompare la lb) := by
  refine ⟨compareVersions_self, ?_, compareVersions_le_trans, by decide, ?_, ?_⟩
  · intro a b
    rw [compareVersions_neg a b, Int.sign_neg]
  · intro a b h hA hB
    obtain ⟨lb, hlb⟩ := Option.ne_none_iff_exists'.mp hB
    unfold compareVersions
    rw [if_neg (not_not_intro h), hA, hlb]
    simp [prereleaseTier]
  · intro a b la lb h hA hla hB hlb
    unfold compareVersions
    rw [if_neg (not_not_intro h), hA, hB]
    simp [prereleaseTier, hla, hlb]

/-- Witness for C1: the transitivity clause applied at concrete inputs. -/
theorem compareVersions_total_order_witness :
    compareVersions "1.2.0-alpha" "1.3.0" ≤ 0 :=
  compareVersions_total_order.2.2.1 "1.2.0-alpha" "1.2.0-beta" "1.3.0"
    (by decide) (by decide) (by decide) (by decide) (by decide)

/-- C4 counterexample: for current `2.0.0-alpha` and candidate `1.0.0-beta`,
no numeric component of the candidate exceeds the current one and the numeric
components are not all equal, so the claimed decision procedure yields `patch`;
the code returns `prerelease` because its final pre-release check fires
whenever the three exceeds-checks fail, not only when the components are all
equal. -/
theorem getUpdateType_claim_counterexample :
    getUpdateType "2.0.0-alpha" "1.0.0-beta" = UpdateType.prerelease ∧
    UpdateType.prerelease ≠ UpdateType.patch ∧
    (parseVersion "1.0.0-beta").1 ≠ (parseVersion "2.0.0-alpha").1 ∧
    (parseVersion "1.0.0-beta").1.getD 0 0 ≤ (parseVersion "2.0.0-alpha").1.getD 0 0 ∧
    (parseVersion "1.0.0-beta").1.getD 1 0 ≤ (parseVersion "2.0.0-alpha").1.getD 1 0 ∧
    (parseVersion "1.0.0-beta").1.getD 2 0 ≤ (parseVersion "2.0.0-alpha").1.getD 2 0 := by
  decide

/-- C4 (amended): `getUpdateType` follows the fixed decision order: equal
strings or an empty candidate give `none`; a candidate carrying a (nonempty)
pre-release label when the current has none gives `prerelease` regardless of
numeric delta; otherwise the first index among major (0), minor (1), patch (2)
at which the candidate numeric component exceeds the current one (missing
components treated as 0) gives `major`, `minor`, or `patch`; if no component
exceeds and both sides carry labels, `prerelease`; otherwise `patch`; and the
five concrete classifications hold. -/
theorem getUpdateType_decision_order :
    (∀ cur cand : String, cand = "" ∨ cur = cand → getUpdateType cur cand = .none) ∧
    (∀ cur cand : String, ¬(cand = "" ∨ cur = cand) →
      truthyOpt (parseVersion cand).2 = true → truthyOpt (parseVersion cur).2 = false →
      getUpdateType cur cand = .prerelease) ∧
    (∀ cur cand : String, ¬(cand = "" ∨ cur = cand) →
      (truthyOpt (parseVersion cand).2 && !truthyOpt (parseVersion cur).2) = false →
      (parseVersion cand).1.getD 0 0 > (parseVersion cur).1.getD 0 0 →
      getUpdateType cur cand = .major) ∧
    (∀ cur cand : String, ¬(cand = "" ∨ cur = cand) →
      (truthyOpt (parseVersion cand).2 && !truthyOpt (parseVersion cur).2) = false →
      ¬((parseVersion cand).1.getD 0 0 > (parseVersion cur).1.getD 0 0) →
      (parseVersion cand).1.getD 1 0 > (parseVersion cur).1.getD 1 0 →
      getUpdateType cur cand = .minor) ∧
    (∀ cur cand : String, ¬(cand = "" ∨ cur = cand) →
      (truthyOpt (parseVersion cand).2 && !truthyOpt (parseVersion cur).2) = false →
      ¬((parseVersion cand).1.getD 0 0 > (parseVersion cur).1.getD 0 0) →
      ¬((parseVersion cand).1.getD 1 0 > (parseVersion cur).1.getD 1 0) →
      (parseVersion cand).1.getD 2 0 > (parseVersion cur).1.getD 2 0 →
      getUpdateType cur cand = .patch) ∧
    (∀ cur cand : String, ¬(cand = "" ∨ cur = cand) →
      (truthyOpt (parseVersion cand).2 && !truthyOpt (parseVersion cur).2) = false →
      ¬((parseVersion cand).1.getD 0 0 > (parseVersion cur).1.getD 0 0) →
      ¬((parseVersion cand).1.getD 1 0 > (parseVersion cur).1.getD 1 0) →
      ¬((parseVersion cand).1.getD 2 0 > (parseVersion cur).1.getD 2 0) →
      (truthyOpt (parseVersion cur).2 && truthyOpt (parseVersion cand).2) = true →
      getUpdateType cur cand = .prerelease) ∧
    (∀ cur cand : String, ¬(cand = "" ∨ cur = cand) →
      (truthyOpt (parseVersion cand).2 && !truthyOpt (parseVersion cur).2) = false →
      ¬((parseVersion cand).1.getD 0 0 > (parseVersion cur).1.getD 0 0) →
      ¬((parseVersion cand).1.getD 1 0 > (parseVersion cur).1.getD 1 0) →
      ¬((parseVersion cand).1.getD 2 0 > (parseVersion cur).1.getD 2 0) →
      (truthyOpt (parseVersion cur).2 && truthyOpt (parseVersion cand).2) = false →
      getUpdateType cur cand = .patch) ∧
    getUpdateType "1.0.0" "2.0.0" = .major ∧
    getUpdateType "1.2.0" "1.3.0" = .minor ∧
    getUpdateType "1.2.3" "1.2.4" = .patch ∧
    getUpdateType "1.0.0" "1.0.0-beta" = .prerelease ∧
    getUpdateType "1.0.0" "1.0.0" = .none := by
  refine ⟨?_, ?_, ?_, ?_, ?_, ?_, ?_, by decide, by decide, by decide, by decide, by decide⟩
  · intro cur cand h
    simp [getUpdateType, h]
  · intro cur cand h ht hc
    simp [getUpdateType, h, ht, hc]
  · intro cur cand h hg h0
    simp only [List.getD_eq_getElem?_getD] at h0
    simp [getUpdateType, h, hg, h0]
  · intro cur cand h hg h0 h1
    simp only [List.getD_eq_getElem?_getD] at h0 h1
    simp [getUpdateType, h, hg, h0, h1]
  · intro cur cand h hg h0 h1 h2
    simp only [List.getD_eq_getElem?_getD] at h0 h1 h2
    simp [getUpdateType, h, hg, h0, h1, h2]
  · intro cur cand h hg h0 h1 h2 hb
    simp only [List.getD_eq_getElem?_getD] at h0 h1 h2
    simp [getUpdateType, h, hg, h0, h1, h2, hb]
  · intro cur cand h hg h0 h1 h2 hb
    simp only [List.getD_eq_getElem?_getD] at h0 h1 h2
    simp [getUpdateType, h, hg, h0, h1, h2, hb]

/-- Witness for C4: the minor branch applied at concrete inputs. -/
theorem getUpdateType_decision_order_witness :
    getUpdateType "1.2.0" "1.3.0" = UpdateType.minor :=
  getUpdateType_decision_order.2.2.2.1 "1.2.0" "1.3.0"
    (by decide) (by decide) (by decide) (by decide)

theorem versionGe_total (a b : String) :
    ¬ 0 ≤ compareVersions a b → VersionGe b a := by
  intro h
  unfold VersionGe
  rw [compareVersions_neg b a]
  omega

theorem insertDescending_head_cases (x : String) : ∀ l : List String,
    (insertDescending x l).head? = some x ∨ (insertDescending x l).head? = l.head?
  | [] => Or.inl rfl
  | y :: ys => by
    unfold insertDescending
    by_cases h : 0 ≤ compareVersions x y
    · simp [h]
    · simp [h]

theorem chain_insertDescending (x : String) : ∀ l : List String,
    l.Chain' VersionGe → (insertDescending x l).Chain' VersionGe
  | [], _ => by simp [insertDescending]
  | y :: ys, h => by
    unfold insertDescending
    by_cases hxy : 0 ≤ compareVersions x y
    · rw [if_pos hxy]
      exact List.chain'_cons.mpr ⟨hxy, h⟩
    · rw [if_neg hxy]
      have htail : (insertDescending x ys).Chain' VersionGe :=
        chain_insertDescending x ys h.tail
      apply List.chain'_cons'.mpr
      refine ⟨?_, htail⟩
      intro z hz
      rcases insertDescending_head_cases x ys with hh | hh
      · rw [hh] at hz
        simp only [Option.mem_def, Option.some.injEq] at hz
        subst hz
        exact versionGe_total x y hxy
      · rw [hh] at hz
        exact (List.chain'_cons'.mp h).1 z hz

theorem chain_sortVersionsDescending : ∀ l : List String,
    (sortVersionsDescending l).Chain' VersionGe
  | [] => List.chain'_nil
  | x :: xs => by
    have ih := chain_sortVersionsDescending xs
    simpa [sortVersionsDescending] using chain_insertDescending x _ ih

/-- C3 counterexample: `getLatestVersion` does not always return the first
entry lacking a pre-release label.  When that entry is the empty string, the
`stableVersion || versions[0]` fallback discards it and returns the first
entry overall even though a label-free entry exists. -/
theorem latestVersion_first_stable_counterexample :
    ["1.0.0-beta", ""].find? (fun v => !isPrerelease v) = some "" ∧
    latestFromList ["1.0.0-beta", ""] = "1.0.0-beta" ∧
    latestFromList ["1.0.0-beta", ""] ≠ "" := by
  decide

/-- C3 (amended): the fetched list is cached sorted descending by the
comparator (every element compares greater than or equal to its successor);
`getLatestVersion` returns the first entry without a pre-release label, falling
back to the first entry overall when no such entry exists or when the first
such entry is the empty string, and returns the empty string for an empty
list; `getLatestPrereleaseVersion` returns the first entry with a pre-release
label, or the empty string if none; and for the fetched list
`["1.0.0","1.1.0","1.0.0-beta","2.0.0-alpha","1.1.1"]`, `getLatestVersion`
returns `"1.1.1"`. -/
theorem versionList_queries :
    (∀ l : List String, (sortVersionsDescending l).Chain' VersionGe) ∧
    latestFromList
      (sortVersionsDescending ["1.0.0", "1.1.0", "1.0.0-beta", "2.0.0-alpha", "1.1.1"]) =
      "1.1.1" ∧
    latestFromList [] = "" ∧
    prereleaseFromList [] = "" ∧
    (∀ (l : List String) (s : String),
      l.find? (fun v => !isPrerelease v) = some s → s ≠ "" → latestFromList l = s) ∧
    (∀ (v0 : String) (rest : List String),
      ((v0 :: rest).find? (fun v => !isPrerelease v) = none ∨
        (v0 :: rest).find? (fun v => !isPrerelease v) = some "") →
      latestFromList (v0 :: rest) = v0) ∧
    (∀ (l : List String) (s : String),
      l.find? (fun v => isPrerelease v) = some s → prereleaseFromList l = s) ∧
    (∀ l : List String, l.find? (fun v => isPrerelease v) = none →
      prereleaseFromList l = "") := by
  refine ⟨chain_sortVersionsDescending, by decide, rfl, rfl, ?_, ?_, ?_, ?_⟩
  · intro l s hf hs
    cases l with
    | nil => simp at hf
    | cons v0 rest => simp [latestFromList, hf, hs]
  · intro v0 rest h
    rcases h with h | h <;> simp [latestFromList, h]
  · intro l s hf
    cases l with
    | nil => simp at hf
    | cons v0 rest => simp [prereleaseFromList, hf]
  · intro l hf
    cases l with
    | nil => rfl
    | cons v0 rest => simp [prereleaseFromList, hf]

/-- Witness for C3: the first-stable clause applied at concrete inputs. -/
theorem versionList_queries_witness :
    latestFromList ["2.0.0-alpha", "1.1.1", "1.0.0"] = "1.1.1" :=
  versionList_queries.2.2.2.2.1 ["2.0.0-alpha", "1.1.1", "1.0.0"] "1.1.1"
    (by decide) (by decide)

/-- C5: `isVersionInRange` holds on the four claimed memberships, any range
string that fails to parse matches no version, and on a successful parse
membership holds iff the version is excluded by neither present bound, with a
bracket inclusive and a parenthesis exclusive under the comparator. -/
theorem isVersionInRange_spec :
    isVersionInRange "1.5.0" "[1.0.0,2.0.0)" = true ∧
    isVersionInRange "2.0.0" "[1.0.0,2.0.0)" = false ∧
    isVersionInRange "1.0.0" "(1.0.0,2.0.0]" = false ∧
    isVersionInRange "2.0.0" "(1.0.0,2.0.0]" = true ∧
    (∀ version range : String, parseInterval true range.data = Option.none →
      isVersionInRange version range = false) ∧
    (∀ (version range : String) (minInc maxInc : Bool) (minCs maxCs : List Char),
      parseInterval true range.data = Option.some (minInc, minCs, maxCs, maxInc) →
      (isVersionInRange version range = true ↔
        ((jsTrim (String.mk minCs) ≠ "" →
          (if minInc then 0 ≤ compareVersions version (jsTrim (String.mk minCs))
           else 0 < compareVersions version (jsTrim (String.mk minCs)))) ∧
         (jsTrim (String.mk maxCs) ≠ "" →
          (if maxInc then compareVersions version (jsTrim (String.mk maxCs)) ≤ 0
           else compareVersions version (jsTrim (String.mk maxCs)) < 0))))) := by
  refine ⟨by decide, by decide, by decide, by decide, ?_, ?_⟩
  · intro version range hp
    unfold isVersionInRange
    rw [hp]
  · intro version range minInc maxInc minCs maxCs hp
    unfold isVersionInRange
    rw [hp]
    cases minInc <;> cases maxInc <;>
      simp [Bool.or_eq_true, Bool.and_eq_true, decide_eq_true_eq, beq_iff_eq] <;>
      constructor <;> intro hh <;> tauto

/-- Witness for C5: the parse-failure clause applied at a concrete range. -/
theorem isVersionInRange_spec_witness :
    isVersionInRange "1.0.0" "not a range" = false :=
  isVersionInRange_spec.2.2.2.2.1 "1.0.0" "not a range" (by decide)

/-- C10: evaluation of `formatVulnerabilityRange` at the claimed inputs.  The
single-version range renders as a lower bound, not as the documented `Exact`
form: with no comma the regex captures the whole version as the min bound and
leaves the max empty, so the one-sided branch fires; the exact branch is
reachable only through a two-bound range with equal endpoints.  The two
one-sided claimed renderings hold. -/
theorem formatVulnerabilityRange_exact_bug :
    formatVulnerabilityRange "[1.0.0]" = ">= 1.0.0" ∧
    formatVulnerabilityRange "[1.0.0]" ≠ "Exact 1.0.0" ∧
    formatVulnerabilityRange "[1.0.0,)" = ">= 1.0.0" ∧
    formatVulnerabilityRange "(,2.0.0)" = "< 2.0.0" ∧
    formatVulnerabilityRange "[1.0.0,1.0.0]" = "Exact 1.0.0" := by
  decide

theorem lookup_none_notMem {β : Type} (k : String) :
    ∀ l : List (String × β), List.lookup k l = Option.none → k ∉ l.map Prod.fst
  | [], _ => by simp
  | (k', v) :: l, h => by
    by_cases hk : k = k'
    · subst hk
      simp [List.lookup] at h
    · have hb : (k == k') = false := beq_eq_false_iff_ne.mpr hk
      simp only [List.lookup, hb] at h
      simp only [List.map_cons, List.mem_cons]
      rintro (h1 | h2)
      · exact hk h1
      · exact lookup_none_notMem k l h h2

theorem pendingUnique_startOrJoin (s : NugetState) (key : String)
    (h : PendingUnique s) : PendingUnique (startOrJoin s key).1 := by
  unfold startOrJoin
  cases hp : s.pending.lookup key with
  | some rid => exact h
  | none =>
    unfold PendingUnique at h ⊢
    simp only [List.map_cons]
    exact List.nodup_cons.mpr ⟨lookup_none_notMem key s.pending hp, h⟩

theorem pendingUnique_step (s : NugetState) (e : NugetEvent)
    (h : PendingUnique s) : PendingUnique (stepState s e) := by
  cases e with
  | call pkg now =>
    show PendingUnique (callVersions s pkg now).1
    unfold callVersions
    cases hc : s.cache.lookup (lowerKey pkg) with
    | some vt =>
      obtain ⟨vs, ts⟩ := vt
      show PendingUnique
        (if isCacheValidAt now ts = true then (s, CallOutcome.cached vs)
          else startOrJoin s (lowerKey pkg)).1
      by_cases hv : isCacheValidAt now ts = true
      · rw [if_pos hv]
        exact h
      · rw [if_neg hv]
        exact pendingUnique_startOrJoin s (lowerKey pkg) h
    | none => exact pendingUnique_startOrJoin s (lowerKey pkg) h
  | complete pkg result now =>
    show PendingUnique (completeFetch s (lowerKey pkg) result now)
    unfold PendingUnique
    have hpend : (completeFetch s (lowerKey pkg) result now).pending =
        s.pending.filter (fun e => e.1 != lowerKey pkg) := rfl
    rw [hpend]
    have hsub :
        ((s.pending.filter fun e => e.1 != lowerKey pkg).map Prod.fst).Sublist
          (s.pending.map Prod.fst) :=
      (List.filter_sublist s.pending).map Prod.fst
    exact List.Nodup.sublist hsub h

theorem pendingUnique_run (es : List NugetEvent) : PendingUnique (runEvents es) := by
  unfold runEvents
  have aux : ∀ (l : List NugetEvent) (s : NugetState),
      PendingUnique s → PendingUnique (l.foldl stepState s) := by
    intro l
    induction l with
    | nil => intro s hs; exact hs
    | cons e l ih =>
      intro s hs
      exact ih _ (pendingUnique_step s e hs)
  exact aux es initState (by simp [PendingUnique, initState])

theorem keyNodup_unique_rid : ∀ l : List (String × Nat), (l.map Prod.fst).Nodup →
    ∀ (k : String) (r1 r2 : Nat), (k, r1) ∈ l → (k, r2) ∈ l → r1 = r2
  | [], _, k, r1, r2, h1, _ => by simp at h1
  | (k', v) :: l, hn, k, r1, r2, h1, h2 => by
    simp only [List.map_cons, List.nodup_cons] at hn
    rcases List.mem_cons.mp h1 with e1 | m1 <;> rcases List.mem_cons.mp h2 with e2 | m2
    · rw [Prod.mk.injEq] at e1 e2
      omega
    · rw [Prod.mk.injEq] at e1
      exfalso
      apply hn.1
      rw [← e1.1]
      exact List.mem_map_of_mem Prod.fst m2
    · rw [Prod.mk.injEq] at e2
      exfalso
      apply hn.1
      rw [← e2.1]
      exact List.mem_map_of_mem Prod.fst m1
    · exact keyNodup_unique_rid l hn.2 k r1 r2 m1 m2

theorem startOrJoin_started (s : NugetState) (key : String) (rid : Nat)
    (h : (startOrJoin s key).2 = .started rid) : s.pending.lookup key = Option.none := by
  unfold startOrJoin at h
  cases hp : s.pending.lookup key with
  | some r =>
    rw [hp] at h
    simp at h
  | none => rfl

theorem started_conditions (s : NugetState) (pkg : String) (now rid : Nat)
    (h : (callVersions s pkg now).2 = .started rid) :
    (∀ vs ts, s.cache.lookup (lowerKey pkg) = Option.some (vs, ts) →
      isCacheValidAt now ts = false) ∧
    s.pending.lookup (lowerKey pkg) = Option.none := by
  unfold callVersions at h
  cases hc : s.cache.lookup (lowerKey pkg) with
  | some vt =>
    obtain ⟨vs, ts⟩ := vt
    rw [hc] at h
    have h' : (if isCacheValidAt now ts = true then (s, CallOutcome.cached vs)
        else startOrJoin s (lowerKey pkg)).2 = CallOutcome.started rid := h
    by_cases hv : isCacheValidAt now ts = true
    · rw [if_pos hv] at h'
      simp at h'
    · rw [if_neg hv] at h'
      simp only [Bool.not_eq_true] at hv
      constructor
      · intro vs' ts' heq
        cases heq
        exact hv
      · exact startOrJoin_started s (lowerKey pkg) rid h'
  | none =>
    rw [hc] at h
    have h' : (startOrJoin s (lowerKey pkg)).2 = CallOutcome.started rid := h
    refine ⟨fun vs ts heq => ?_, startOrJoin_started s (lowerKey pkg) rid h'⟩
    exact absurd heq (by simp)

theorem cached_hit (s : NugetState) (pkg : String) (now : Nat)
    (vs : List String) (ts : Nat)
    (hc : s.cache.lookup (lowerKey pkg) = Option.some (vs, ts))
    (hv : isCacheValidAt now ts = true) :
    callVersions s pkg now = (s, .cached vs) := by
  unfold callVersions
  rw [hc]
  simp [hv]

theorem callVersions_join_pending (s : NugetState) (pkg : String) (now rid : Nat)
    (hc : s.cache.lookup (lowerKey pkg) = Option.none)
    (hp : s.pending.lookup (lowerKey pkg) = Option.some rid) :
    callVersions s pkg now = (s, .joined rid) := by
  unfold callVersions startOrJoin
  rw [hc, hp]

theorem coalesce_concurrent (s : NugetState) (pkg : String) (now1 now2 : Nat)
    (hc : s.cache.lookup (lowerKey pkg) = Option.none)
    (hp : s.pending.lookup (lowerKey pkg) = Option.none) :
    (callVersions s pkg now1).2 = .started s.nextId ∧
    (callVersions (callVersions s pkg now1).1 pkg now2).2 = .joined s.nextId ∧
    ∀ f, deliveredResult (callVersions s pkg now1).2 f =
      deliveredResult (callVersions (callVersions s pkg now1).1 pkg now2).2 f := by
  have h1 : callVersions s pkg now1 =
      ({ s with pending := (lowerKey pkg, s.nextId) :: s.pending, nextId := s.nextId + 1 },
        .started s.nextId) := by
    unfold callVersions startOrJoin
    rw [hc, hp]
  have h2 : callVersions (callVersions s pkg now1).1 pkg now2 =
      ((callVersions s pkg now1).1, .joined s.nextId) := by
    apply callVersions_join_pending
    · rw [h1]
      exact hc
    · rw [h1]
      show List.lookup (lowerKey pkg) ((lowerKey pkg, s.nextId) :: s.pending) =
        Option.some s.nextId
      simp [List.lookup]
  refine ⟨by rw [h1], by rw [h2], fun f => ?_⟩
  rw [h2, h1]
  rfl

/-- C2: the pending map never holds two fetches for one key along any event
trace; a `started` outcome (the only provider invocation) requires that the
key has no TTL-fresh cache entry and no in-flight fetch; a TTL-fresh cache
entry is served with no state change and no provider invocation; and from a
state with neither cache entry nor in-flight fetch, two consecutive calls for
the same package start exactly one request, the second joining the first, and
any provider outcome is delivered identically to both callers. -/
theorem getPackageVersions_coalescing :
    (∀ (es : List NugetEvent) (k : String) (r1 r2 : Nat),
      (k, r1) ∈ (runEvents es).pending → (k, r2) ∈ (runEvents es).pending → r1 = r2) ∧
    (∀ (s : NugetState) (pkg : String) (now rid : Nat),
      (callVersions s pkg now).2 = .started rid →
      (∀ vs ts, s.cache.lookup (lowerKey pkg) = Option.some (vs, ts) →
        isCacheValidAt now ts = false) ∧
      s.pending.lookup (lowerKey pkg) = Option.none) ∧
    (∀ (s : NugetState) (pkg : String) (now : Nat) (vs : List String) (ts : Nat),
      s.cache.lookup (lowerKey pkg) = Option.some (vs, ts) →
      isCacheValidAt now ts = true →
      callVersions s pkg now = (s, .cached vs)) ∧
    (∀ (s : NugetState) (pkg : String) (now1 now2 : Nat),
      s.cache.lookup (lowerKey pkg) = Option.none →
      s.pending.lookup (lowerKey pkg) = Option.none →
      (callVersions s pkg now1).2 = .started s.nextId ∧
      (callVersions (callVersions s pkg now1).1 pkg now2).2 = .joined s.nextId ∧
      ∀ f, deliveredResult (callVersions s pkg now1).2 f =
        deliveredResult (callVersions (callVersions s pkg now1).1 pkg now2).2 f) :=
  ⟨fun es k r1 r2 h1 h2 =>
      keyNodup_unique_rid (runEvents es).pending (pendingUnique_run es) k r1 r2 h1 h2,
    started_conditions, cached_hit, coalesce_concurrent⟩

/-- Witness for C2: the cached-hit clause applied at a concrete state. -/
theorem getPackageVersions_coalescing_witness :
    callVersions ⟨[("pkg", ["1.0.0"], 0)], [], 0⟩ "Pkg" 10 =
      (⟨[("pkg", ["1.0.0"], 0)], [], 0⟩, .cached ["1.0.0"]) :=
  getPackageVersions_coalescing.2.2.1 ⟨[("pkg", ["1.0.0"], 0)], [], 0⟩ "Pkg" 10
    ["1.0.0"] 0 (by decide) (by decide)

/-- C6 (evaluation at the failing input): with no cache entry, a provider
failure reaches the starting caller — and identically any coalesced caller —
as the rejection itself, not as a resolved empty list: the `catch` block of
`getPackageVersions` only guards the synchronous section, because the promise
is returned from the `try` without an await.  No cache entry is written for
the package, the pending entry is removed, and the immediately following call
starts a fresh provider request. -/
theorem getPackageVersions_failure_evaluation :
    (callVersions initState "Pkg" 0).2 = CallOutcome.started 0 ∧
    (callVersions (callVersions initState "Pkg" 0).1 "PKG" 1).2 = CallOutcome.joined 0 ∧
    deliveredResult (CallOutcome.started 0) (fun _ => Except.error "HTTP 404") =
      Except.error "HTTP 404" ∧
    deliveredResult (CallOutcome.joined 0) (fun _ => Except.error "HTTP 404") =
      Except.error "HTTP 404" ∧
    (Except.error "HTTP 404" : Except String (List String)) ≠ Except.ok [] ∧
    (completeFetch (callVersions initState "Pkg" 0).1 (lowerKey "Pkg")
        (Except.error "HTTP 404") 2).cache = [] ∧
    (completeFetch (callVersions initState "Pkg" 0).1 (lowerKey "Pkg")
        (Except.error "HTTP 404") 2).pending = [] ∧
    (callVersions (completeFetch (callVersions initState "Pkg" 0).1 (lowerKey "Pkg")
        (Except.error "HTTP 404") 2) "Pkg" 3).2 = CallOutcome.started 1 := by
  refine ⟨rfl, rfl, rfl, rfl, ?_, rfl, rfl, rfl⟩
  simp

/-- C7 counterexample: a prior snapshot holding a vulnerability for
`examplepkg` is not left in place by a failed refresh after TTL expiry — the
empty map of the failed `fetchVulnerabilityData` run replaces it with a fresh
timestamp and the lookup answers empty, although the prior snapshot (third
conjunct: the same lookup before expiry) reported the vulnerability. -/
theorem vulnerability_refresh_counterexample :
    getVulnerabilitiesModel
        (Option.some ⟨[("examplepkg", [⟨2, "adv", "[1.0.0,2.0.0)"⟩])], 0⟩)
        VULNERABILITY_CACHE_TTL_MS [] "ExamplePkg" "1.5.0" =
      (Option.some ⟨[], VULNERABILITY_CACHE_TTL_MS⟩, []) ∧
    Option.some (⟨[], VULNERABILITY_CACHE_TTL_MS⟩ : VulnerabilityCache) ≠
      Option.some (⟨[("examplepkg", [⟨2, "adv", "[1.0.0,2.0.0)"⟩])], 0⟩ :
        VulnerabilityCache) ∧
    (getVulnerabilitiesModel
        (Option.some ⟨[("examplepkg", [⟨2, "adv", "[1.0.0,2.0.0)"⟩])], 0⟩)
        0 [] "ExamplePkg" "1.5.0").2 = [⟨2, "adv", "[1.0.0,2.0.0)"⟩] := by
  decide

/-- C7 (amended): a snapshot younger than the 6-hour TTL is kept and answers
the lookup; when the snapshot is absent or expired, the refresh result — the
empty (or partial) map when any step failed — replaces the snapshot
unconditionally with a fresh timestamp and answers the lookup; the previous
snapshot is not retained. -/
theorem getVulnerabilities_refresh :
    (∀ (c : VulnerabilityCache) (now : Nat) (fetched : List (String × List VulnInfo))
      (pkg ver : String), now - c.timestamp < VULNERABILITY_CACHE_TTL_MS →
      getVulnerabilitiesModel (Option.some c) now fetched pkg ver =
        (Option.some c,
          ((c.data.lookup (lowerKey pkg)).getD []).filter
            (fun v => isVersionInRange ver v.versions))) ∧
    (∀ (c : VulnerabilityCache) (now : Nat) (fetched : List (String × List VulnInfo))
      (pkg ver : String), ¬ now - c.timestamp < VULNERABILITY_CACHE_TTL_MS →
      getVulnerabilitiesModel (Option.some c) now fetched pkg ver =
        (Option.some ⟨fetched, now⟩,
          ((fetched.lookup (lowerKey pkg)).getD []).filter
            (fun v => isVersionInRange ver v.versions))) ∧
    (∀ (now : Nat) (fetched : List (String × List VulnInfo)) (pkg ver : String),
      getVulnerabilitiesModel Option.none now fetched pkg ver =
        (Option.some ⟨fetched, now⟩,
          ((fetched.lookup (lowerKey pkg)).getD []).filter
            (fun v => isVersionInRange ver v.versions))) := by
  refine ⟨?_, ?_, fun now fetched pkg ver => rfl⟩
  · intro c now fetched pkg ver h
    show (if now - c.timestamp < VULNERABILITY_CACHE_TTL_MS then _ else _) = _
    rw [if_pos h]
  · intro c now fetched pkg ver h
    show (if now - c.timestamp < VULNERABILITY_CACHE_TTL_MS then _ else _) = _
    rw [if_neg h]

/-- Witness for C7: the expired-refresh clause applied at concrete inputs. -/
theorem getVulnerabilities_refresh_witness :
    getVulnerabilitiesModel (Option.some ⟨[], 0⟩) VULNERABILITY_CACHE_TTL_MS
        [("pkg", [⟨0, "u", "[1.0.0,)"⟩])] "pkg" "2.0.0" =
      (Option.some ⟨[("pkg", [⟨0, "u", "[1.0.0,)"⟩])], VULNERABILITY_CACHE_TTL_MS⟩,
        [⟨0, "u", "[1.0.0,)"⟩]) := by
  rw [getVulnerabilities_refresh.2.1 ⟨[], 0⟩ VULNERABILITY_CACHE_TTL_MS
    [("pkg", [⟨0, "u", "[1.0.0,)"⟩])] "pkg" "2.0.0" (by decide)]
  decide

/-- C8 (evaluation at the failing input): in the webview batch path, one
provider failure for one package rejects the whole `refreshPackageList` run — the
succeeding package B never receives its resolved record (first conjunct),
although B alone resolves fine (third conjunct) — while the CodeLens path
isolates the failure per package and still resolves B (second conjunct). -/
theorem batch_resolution_abort_evaluation :
    refreshPackageListModel [("A", "1.0.0"), ("B", "1.0.0")]
        (fun n => if n = "A" then Except.error "network" else Except.ok ["2.0.0", "1.0.0"])
        [] =
      Except.error "network" ∧
    fetchVersionsAsyncModel [("A", "1.0.0"), ("B", "1.0.0")]
        (fun n => if n = "A" then Except.error "network" else Except.ok ["2.0.0", "1.0.0"])
        [] =
      [("A", ⟨Option.none, Option.none, []⟩),
        ("B", ⟨Option.some "2.0.0", Option.some "", []⟩)] ∧
    refreshPackageListModel [("B", "1.0.0")]
        (fun n => if n = "A" then Except.error "network" else Except.ok ["2.0.0", "1.0.0"])
        [] =
      Except.ok [resolvePackage "B" "1.0.0" ["2.0.0", "1.0.0"] []] := by
  refine ⟨rfl, rfl, rfl⟩

/-! ## The pre-release gate (C9 support lemmas) -/
theorem splitAtFirstChar_fst_not_mem (sep : Char) :
    ∀ cs : List Char, sep ∉ (splitAtFirstChar sep cs).1
  | [] => by simp [splitAtFirstChar]
  | c :: cs => by
    by_cases h : c = sep
    · simp [splitAtFirstChar, h]
    · have ih := splitAtFirstChar_fst_not_mem sep cs
      simp only [splitAtFirstChar, if_neg h]
      intro hmem
      rcases List.mem_cons.mp hmem with h1 | h2
      · exact h h1.symm
      · exact ih h2

theorem splitAtFirstChar_snd_some_mem (sep : Char) :
    ∀ (cs t : List Char), (splitAtFirstChar sep cs).2 = Option.some t → sep ∈ cs
  | [], t, h => by simp [splitAtFirstChar] at h
  | c :: cs, t, h => by
    by_cases hc : c = sep
    · rw [hc]
      exact List.mem_cons_self sep cs
    · simp only [splitAtFirstChar, if_neg hc] at h
      exact List.mem_cons_of_mem c (splitAtFirstChar_snd_some_mem sep cs t h)

theorem splitOnChar_ne_nil (sep : Char) : ∀ cs : List Char, splitOnChar sep cs ≠ []
  | [] => by simp [splitOnChar]
  | c :: cs => by
    have ih := splitOnChar_ne_nil sep cs
    simp only [splitOnChar]
    by_cases h : c = sep
    · simp [h]
    · simp only [if_neg h]
      cases hr : splitOnChar sep cs with
      | nil => exact absurd hr ih
      | cons hd tl => simp

theorem mem_splitOnChar_mem (sep : Char) :
    ∀ (cs seg : List Char), seg ∈ splitOnChar sep cs → ∀ ch ∈ seg, ch ∈ cs
  | [], seg, hseg, ch, hch => by
    simp [splitOnChar] at hseg
    subst hseg
    simp at hch
  | c :: cs, seg, hseg, ch, hch => by
    have ih := mem_splitOnChar_mem sep cs
    simp only [splitOnChar] at hseg
    by_cases h : c = sep
    · rw [if_pos h] at hseg
      rcases List.mem_cons.mp hseg with h1 | h2
      · subst h1
        simp at hch
      · exact List.mem_cons_of_mem c (ih seg h2 ch hch)
    · rw [if_neg h] at hseg
      cases hr : splitOnChar sep cs with
      | nil => exact absurd hr (splitOnChar_ne_nil sep cs)
      | cons hd tl =>
        rw [hr] at hseg
        rcases List.mem_cons.mp hseg with h1 | h2
        · subst h1
          rcases List.mem_cons.mp hch with h3 | h4
          · subst h3
            exact List.mem_cons_self ch cs
          · have : hd ∈ splitOnChar sep cs := by rw [hr]; exact List.mem_cons_self hd tl
            exact List.mem_cons_of_mem c (ih hd this ch h4)
        · have : seg ∈ splitOnChar sep cs := by rw [hr]; exact List.mem_cons_of_mem hd h2
          exact List.mem_cons_of_mem c (ih seg this ch hch)

theorem jsParseInt_nonneg (cs : List Char) (h : '-' ∉ cs) :
    0 ≤ (jsParseInt cs).getD 0 := by
  unfold jsParseInt
  cases hd : cs.dropWhile isJsWhitespace with
  | nil => simp
  | cons c rest =>
    have hcm : c ≠ '-' := by
      intro hc
      apply h
      have : c ∈ cs.dropWhile isJsWhitespace := by rw [hd]; exact List.mem_cons_self c rest
      rw [← hc]
      exact (List.dropWhile_sublist _).mem this
    show 0 ≤ (if c = '+' then (parseDigits rest).map Int.ofNat
      else if c = '-' then (parseDigits rest).map (fun n => -(n : Int))
      else (parseDigits (c :: rest)).map Int.ofNat).getD 0
    by_cases hp : c = '+'
    · rw [if_pos hp]
      cases hpd : parseDigits rest with
      | none => simp
      | some n => simp
    · rw [if_neg hp, if_neg hcm]
      cases hpd : parseDigits (c :: rest) with
      | none => simp
      | some n => simp

theorem parseVersion_parts_nonneg (v : String) :
    ∀ p ∈ (parseVersion v).1, 0 ≤ p := by
  intro p hp
  simp only [parseVersion] at hp
  obtain ⟨seg, hseg, rfl⟩ := List.mem_map.mp hp
  apply jsParseInt_nonneg
  intro hmem
  exact splitAtFirstChar_fst_not_mem '-' v.data
    (mem_splitOnChar_mem '.' _ seg hseg '-' hmem)

theorem parseVersion_parts_ne_nil (v : String) : (parseVersion v).1 ≠ [] := by
  simp only [parseVersion]
  intro hnil
  exact splitOnChar_ne_nil '.' _ (List.map_eq_nil_iff.mp hnil)

theorem firstNonzero_nonneg : ∀ l : List Int, (∀ p ∈ l, 0 ≤ p) → 0 ≤ firstNonzero l
  | [], _ => le_refl 0
  | b :: bs, h => by
    unfold firstNonzero
    by_cases hb : b = 0
    · rw [if_neg (not_not_intro hb)]
      exact firstNonzero_nonneg bs (fun p hp => h p (List.mem_cons_of_mem b hp))
    · rw [if_pos hb]
      exact h b (List.mem_cons_self b bs)

theorem isPrerelease_false_label_none (v : String) (h : isPrerelease v = false) :
    (parseVersion v).2 = Option.none := by
  have hmem : '-' ∉ v.data := by
    simpa [isPrerelease] using h
  simp only [parseVersion]
  cases hs : (splitAtFirstChar '-' v.data).2 with
  | none => rfl
  | some tail => exact absurd (splitAtFirstChar_snd_some_mem '-' v.data tail hs) hmem

theorem compareVersions_empty_le (v : String) (hv : (parseVersion v).2 = Option.none) :
    compareVersions "" v ≤ 0 := by
  have h1 : (parseVersion "").1 = [0] := rfl
  have h2 : (parseVersion "").2 = Option.none := rfl
  have hle : cmpParts [0] (parseVersion v).1 ≤ 0 := by
    cases hparts : (parseVersion v).1 with
    | nil => exact absurd hparts (parseVersion_parts_ne_nil v)
    | cons p ps =>
      have hall := parseVersion_parts_nonneg v
      rw [hparts] at hall
      show (if (0 : Int) ≠ p then 0 - p else cmpParts [] ps) ≤ 0
      by_cases hz : (0 : Int) = p
      · rw [if_neg (not_not_intro hz)]
        show -(firstNonzero ps) ≤ 0
        have : 0 ≤ firstNonzero ps :=
          firstNonzero_nonneg ps (fun q hq => hall q (List.mem_cons_of_mem p hq))
        omega
      · rw [if_pos hz]
        have : 0 ≤ p := hall p (List.mem_cons_self p ps)
        omega
  unfold compareVersions
  rw [h1, h2, hv]
  by_cases hz : cmpParts [0] (parseVersion v).1 = 0
  · rw [if_neg (not_not_intro hz)]
    show (0 : Int) ≤ 0
    exact le_refl 0
  · rw [if_pos hz]
    exact hle

theorem latestFromList_head_of_stable (v0 : String) (rest : List String)
    (h : isPrerelease v0 = false) : latestFromList (v0 :: rest) = v0 := by
  show (match (v0 :: rest).find? (fun v => !isPrerelease v) with
    | Option.some s => if s = "" then v0 else s
    | Option.none => v0) = v0
  rw [List.find?_cons_of_pos _ (by simp [h])]
  simp

theorem prerelease_gate_list (l : List String) :
    (if (prereleaseFromList l != "" &&
        decide (0 < compareVersions (prereleaseFromList l) (latestFromList l))) = true
      then Option.some (prereleaseFromList l) else Option.none) =
    (if 0 < compareVersions (prereleaseFromList l) (latestFromList l)
      then Option.some (prereleaseFromList l) else Option.none) := by
  by_cases hp : prereleaseFromList l = ""
  · have hcmp : compareVersions (prereleaseFromList l) (latestFromList l) ≤ 0 := by
      rw [hp]
      cases l with
      | nil =>
        show compareVersions "" (latestFromList []) ≤ 0
        rw [show latestFromList [] = "" from rfl, compareVersions_self]
      | cons v0 rest =>
        cases hf : (v0 :: rest).find? (fun v => isPrerelease v) with
        | some s =>
          exfalso
          have hs : prereleaseFromList (v0 :: rest) = s := by
            show (match (v0 :: rest).find? (fun v => isPrerelease v) with
              | Option.some s => s
              | Option.none => "") = s
            rw [hf]
          rw [hp] at hs
          have := List.find?_some hf
          rw [← hs] at this
          simp [isPrerelease] at this
        | none =>
          have h0 : isPrerelease v0 = false := by
            have := List.find?_eq_none.mp hf v0 (List.mem_cons_self v0 rest)
            simpa using this
          rw [latestFromList_head_of_stable v0 rest h0]
          exact compareVersions_empty_le v0 (isPrerelease_false_label_none v0 h0)
    rw [if_neg (not_lt.mpr hcmp)]
    have hguard : (prereleaseFromList l != "" &&
        decide (0 < compareVersions (prereleaseFromList l) (latestFromList l))) = false := by
      simp [hp]
    rw [hguard]
    simp
  · by_cases hc : 0 < compareVersions (prereleaseFromList l) (latestFromList l)
    · rw [if_pos hc]
      have hguard : (prereleaseFromList l != "" &&
          decide (0 < compareVersions (prereleaseFromList l) (latestFromList l))) = true := by
        simp [hp, hc]
      rw [hguard]
      simp
    · rw [if_neg hc]
      have hguard : (prereleaseFromList l != "" &&
          decide (0 < compareVersions (prereleaseFromList l) (latestFromList l))) = false := by
        simp [hc]
      rw [hguard]
      simp

/-- C9: in every per-package resolution result, the pre-release field is
populated iff the discovered latest pre-release compares strictly greater (by
the comparator) than the resolved latest version, and then carries exactly
that pre-release; with latest stable `2.0.0`, a discovered `2.1.0-beta` is
populated and a discovered `1.9.0-beta` is omitted. -/
theorem resolvePackage_prerelease_gate :
    (∀ (name currentVersion : String) (versions : List String)
      (vulnData : List (String × List VulnInfo)),
      (resolvePackage name currentVersion versions vulnData).prereleaseVersion =
        (if 0 < compareVersions (prereleaseFromList (sortVersionsDescending versions))
            (latestFromList (sortVersionsDescending versions)) then
          Option.some (prereleaseFromList (sortVersionsDescending versions))
        else Option.none)) ∧
    (resolvePackage "p" "1.0.0" ["2.1.0-beta", "2.0.0"] []).latestVersion = "2.0.0" ∧
    (resolvePackage "p" "1.0.0" ["2.1.0-beta", "2.0.0"] []).prereleaseVersion =
      Option.some "2.1.0-beta" ∧
    (resolvePackage "p" "1.0.0" ["2.0.0", "1.9.0-beta"] []).latestVersion = "2.0.0" ∧
    (resolvePackage "p" "1.0.0" ["2.0.0", "1.9.0-beta"] []).prereleaseVersion =
      Option.none := by
  refine ⟨?_, by decide, by decide, by decide, by decide⟩
  intro name currentVersion versions vulnData
  show (if (prereleaseFromList (sortVersionsDescending versions) != "" &&
      decide (0 < compareVersions (prereleaseFromList (sortVersionsDescending versions))
        (latestFromList (sortVersionsDescending versions)))) = true
    then Option.some (prereleaseFromList (sortVersionsDescending versions))
    else Option.none) = _
  exact prerelease_gate_list (sortVersionsDescending versions)

end Yanpm
